import Mathlib

/-!
Verification development for the hybrid retrieval engine of the
`tds-virtual-ta` repository.  The Python sources (`VectorDB.py`, `main.py`)
are shallowly embedded: strings become `List Char`, floats become `ℚ`,
Python dicts become insertion-ordered association lists, and the backing
store / embedding backend becomes an explicit `Except`-valued parameter.
-/

namespace TdsVirtualTA

/-- Texts are modelled as lists of characters (Python `str`; `len` counts
characters, as in Python). -/
abbrev Str := List Char

/-- `pat` is a prefix of `s` (character-wise). -/
def isPre : Str → Str → Bool
  | [], _ => true
  | _ :: _, [] => false
  | a :: as, b :: bs => a == b && isPre as bs

/-- Python's `pat in hay` substring containment. -/
def containsSub (hay pat : Str) : Bool :=
  match hay with
  | [] => isPre pat []
  | _ :: cs => isPre pat hay || containsSub cs pat

/-- Python's `str.lower` (character-wise lower-casing). -/
def toLowerS (s : Str) : Str := s.map Char.toLower

/-- Auxiliary for `splitWs`: accumulates the current (reversed) word. -/
def splitWsAux : Str → Str → List Str
  | [], w => if w = [] then [] else [w.reverse]
  | c :: cs, w =>
      if c.isWhitespace then
        if w = [] then splitWsAux cs [] else w.reverse :: splitWsAux cs []
      else splitWsAux cs (c :: w)

/-- Python's `str.split()` with no argument: split on whitespace runs,
dropping empty tokens. -/
def splitWs (s : Str) : List Str := splitWsAux s []

/-- Python's `str.strip()`: drop leading and trailing whitespace. -/
def stripS (s : Str) : Str :=
  ((s.dropWhile Char.isWhitespace).reverse.dropWhile Char.isWhitespace).reverse

/-- Python slice `text[s:e]`. -/
def sliceS (text : Str) (s e : Nat) : Str := (text.drop s).take (e - s)

/-- Auxiliary for `countOcc`, assuming a non-empty pattern: count
non-overlapping occurrences, scanning left to right.  The fuel argument
(instantiated with the haystack length, which every scan step consumes at
least one character of) only makes the recursion structural. -/
def countOccAux (pat : Str) : Nat → Str → Nat
  | 0, _ => 0
  | _, [] => 0
  | fuel + 1, c :: cs =>
      if isPre pat (c :: cs) then
        1 + countOccAux pat fuel (cs.drop (pat.length - 1))
      else countOccAux pat fuel cs

/-- Python's `hay.count(pat)`: non-overlapping occurrence count
(`''.count` of an empty pattern is `len + 1`, as in Python). -/
def countOcc (hay pat : Str) : Nat :=
  if pat = [] then hay.length + 1 else countOccAux pat hay.length hay

/-- Metadata attached to an indexed chunk (`VectorDB.add_documents`).
Only the fields the verified claims touch are carried. -/
structure Meta where
  title : Str
  url : Str
  username : Str
  category : String
  source_doc_id : Option Nat
deriving DecidableEq

/- ### Categorizer (`SemanticSearchDB._categorize_content`) -/

/-- The `assignment` keyword set of `_categorize_content`. -/
def assignmentKws : List Str :=
  ["assignment".data, "homework".data, "ga1".data, "ga2".data, "ga3".data,
   "ga4".data, "ga5".data, "ga6".data, "ga7".data, "project".data,
   "project 1".data, "project 2".data]

/-- The `exam` keyword set of `_categorize_content`. -/
def examKws : List Str := ["exam".data, "test".data, "final".data, "roe".data]

/-- The `technical` keyword set of `_categorize_content`. -/
def technicalKws : List Str :=
  ["code".data, "error".data, "python".data, "api".data, "debug".data]

/-- The `course` keyword set of `_categorize_content`. -/
def courseKws : List Str :=
  ["course".data, "syllabus".data, "schedule".data, "deadline".data]

/-- The keyword table of `_categorize_content`, in Python dict insertion
order (first match wins; `general` has no keywords). -/
def categoriesTable : List (String × List Str) :=
  [("assignment", assignmentKws), ("exam", examKws),
   ("technical", technicalKws), ("course", courseKws), ("general", [])]

/-- A keyword set matches a text when some keyword is a substring of it. -/
def kwMatch (text : Str) (kws : List Str) : Bool :=
  kws.any (fun kw => containsSub text kw)

/-- `_categorize_content(content, title)`: lower-case
`content + " " + title`, return the first category of the table whose
keyword set matches, else `general`. -/
def categorizeContent (content title : Str) : String :=
  let text := toLowerS (content ++ ' ' :: title)
  match categoriesTable.find? (fun ct => kwMatch text ct.2) with
  | some ct => ct.1
  | none => "general"

/- ### Chunker (`SemanticSearchDB._split_into_chunks`) -/

/-- Python's `text.rfind(pat, s, e)`: the greatest index `i` with
`s ≤ i`, `i + len(pat) ≤ e` and `pat` matching at `i`, if any
(`none` models Python's `-1`). -/
def rfindS (text pat : Str) (s e : Nat) : Option Nat :=
  ((List.range (e + 1)).filter
    (fun i => decide (s ≤ i) && decide (i + pat.length ≤ e)
       && isPre pat (text.drop i))).getLast?

/-- The pattern `text.rfind(pat, start, end); if last > start` used by the
chunker's boundary scan: the rightmost occurrence strictly after `start`. -/
def rfindGt (text pat : Str) (s e : Nat) : Option Nat :=
  match rfindS text pat s e with
  | some i => if s < i then some i else none
  | none => none

/-- The adjusted window end of one chunker iteration: start from
`start + max_size`; if that is inside the text, prefer breaking after
`". "`, `"! "` or `"? "` (in that order), else at the last space, else
keep the hard cut. -/
def chunkEnd (text : Str) (start max_size : Nat) : Nat :=
  let e := start + max_size
  if e < text.length then
    match rfindGt text ['.', ' '] start e with
    | some i => i + 2
    | none =>
      match rfindGt text ['!', ' '] start e with
      | some i => i + 2
      | none =>
        match rfindGt text ['?', ' '] start e with
        | some i => i + 2
        | none =>
          match rfindGt text [' '] start e with
          | some i => i
          | none => e
  else e

/-- The chunker's `while start < len(text)` loop, as a fuel-indexed
function returning the scanned `(start, end)` windows; `none` means the
fuel ran out before the loop exited (shown impossible for fuel
`len(text)` by the progress theorem below).  Each iteration advances
`start` to `max(start + 1, end - overlap)` (Python's possibly negative
`end - overlap` is `max`-dominated exactly like truncated `Nat`
subtraction). -/
def chunkLoop (text : Str) (max_size overlap : Nat) :
    Nat → Nat → Option (List (Nat × Nat))
  | fuel, start =>
    if text.length ≤ start then some []
    else
      match fuel with
      | 0 => none
      | fuel' + 1 =>
        let e := chunkEnd text start max_size
        match chunkLoop text max_size overlap fuel' (max (start + 1) (e - overlap)) with
        | some rest => some ((start, e) :: rest)
        | none => none

/-- The windows scanned by `_split_into_chunks` on a long text, with fuel
`len(text)` (sufficient by the progress theorem). -/
def chunkWindows (text : Str) (max_size overlap : Nat) : List (Nat × Nat) :=
  (chunkLoop text max_size overlap text.length 0).getD []

/-- `_split_into_chunks(text, max_size, overlap)`: short texts are
returned whole; otherwise each scanned window's slice is stripped and
emitted only when non-empty. -/
def splitIntoChunks (text : Str) (max_size overlap : Nat) : List Str :=
  if text.length ≤ max_size then [text]
  else
    (chunkWindows text max_size overlap).filterMap
      (fun p =>
        let c := stripS (sliceS text p.1 p.2)
        if c = [] then none else some c)

/-- The `(start, end)` spans of the chunks actually emitted (windows whose
stripped slice is non-empty); on short texts the single chunk spans the
whole text. -/
def emittedSpans (text : Str) (max_size overlap : Nat) : List (Nat × Nat) :=
  if text.length ≤ max_size then [(0, text.length)]
  else
    (chunkWindows text max_size overlap).filter
      (fun p => !(stripS (sliceS text p.1 p.2) = []))

/-- The coverage property claimed for the chunker: every character index
of the input lies inside the span of some emitted chunk. -/
def chunkCoverage (text : Str) (max_size overlap : Nat) : Prop :=
  ∀ i < text.length, ∃ p ∈ emittedSpans text max_size overlap,
    p.1 ≤ i ∧ i < p.2

instance (text : Str) (ms ov : Nat) : Decidable (chunkCoverage text ms ov) := by
  unfold chunkCoverage; infer_instance

/-- The `(start, end)` spans of every window the chunker scans, whether
or not its chunk is emitted; a short text is the single window `(0, len)`. -/
def windowSpans (text : Str) (max_size overlap : Nat) : List (Nat × Nat) :=
  if text.length ≤ max_size then [(0, text.length)]
  else chunkWindows text max_size overlap

/- ### Retrievers and fusion (`semantic_search`, `keyword_search`,
`hybrid_search`) -/

/-- Raw semantic-retriever output (`semantic_search`'s returned dict):
parallel lists of documents, metadatas and distances. -/
structure SemRaw where
  documents : List Str
  metadatas : List Meta
  distances : List ℚ
deriving DecidableEq

/-- The data `keyword_search` pulls from `collection.get()`: parallel
lists of documents, metadatas and ids. -/
structure KwData where
  documents : List Str
  metadatas : List Meta
  ids : List String
deriving DecidableEq

/-- A scored entry of `keyword_search`'s `scored_docs` list. -/
structure ScoredDoc where
  document : Str
  metadata : Meta
  id : String
  score : Nat
deriving DecidableEq

/-- Raw keyword-retriever output (`keyword_search`'s returned dict). -/
structure KwRaw where
  documents : List Str
  metadatas : List Meta
  scores : List Nat
deriving DecidableEq

/-- Stable insertion placing `x` before the first element it strictly
beats, used to model Python's stable `sort`/`sorted` with
`reverse=True`. -/
def insertDesc (gt : α → α → Bool) (x : α) : List α → List α
  | [] => [x]
  | y :: ys => if gt y x then y :: insertDesc gt x ys else x :: y :: ys

/-- Stable descending sort (Python `sorted(..., key=..., reverse=True)`):
equal keys keep their original relative order. -/
def sortDesc (gt : α → α → Bool) : List α → List α
  | [] => []
  | x :: xs => insertDesc gt x (sortDesc gt xs)

/-- `semantic_search`: the backing vector query either yields a result or
raises; the `except` branch returns the empty result dict. -/
def semanticSearch (backend : Except String SemRaw) : SemRaw :=
  match backend with
  | .ok r => r
  | .error _ => ⟨[], [], []⟩

/-- The scoring/sorting body of `keyword_search` once `collection.get()`
succeeded: lower-cased whitespace query tokens, per-document summed
non-overlapping occurrence counts, keep positive scores, stable-sort
descending, truncate to `n`. -/
def keywordSearchRun (d : KwData) (query : Str) (n : Nat) : KwRaw :=
  let query_words := splitWs (toLowerS query)
  let scored_docs :=
    (d.documents.zip (d.metadatas.zip d.ids)).filterMap
      (fun it =>
        let score := (query_words.map (fun w => countOcc (toLowerS it.1) w)).sum
        if 0 < score then some (ScoredDoc.mk it.1 it.2.1 it.2.2 score) else none)
  let sorted := sortDesc (fun a b => decide (b.score < a.score)) scored_docs
  let top := sorted.take n
  ⟨top.map (·.document), top.map (·.metadata), top.map (·.score)⟩

/-- `keyword_search`: the store scan either yields data or raises; the
`except` branch returns the empty result dict. -/
def keywordSearch (backend : Except String KwData) (query : Str) (n : Nat) :
    KwRaw :=
  match backend with
  | .ok d => keywordSearchRun d query n
  | .error _ => ⟨[], [], []⟩

/-- A key of `hybrid_search`'s `combined_results` dict:
`meta['source_doc_id']` when present, else the fallback strings
`"sem_{i}"` / `"key_{i}"`. -/
inductive DocKey where
  | src : Nat → DocKey
  | semFallback : Nat → DocKey
  | keyFallback : Nat → DocKey
deriving DecidableEq

/-- A value of `combined_results`: document, metadata and the three
scores maintained by the fusion loop. -/
structure HResult where
  document : Str
  metadata : Meta
  semantic_score : ℚ
  keyword_score : ℚ
  final_score : ℚ
deriving DecidableEq

/-- Insertion-ordered dict assignment `m[k] = v`: overwrite in place when
the key exists, else append. -/
def setKey (k : DocKey) (v : HResult) :
    List (DocKey × HResult) → List (DocKey × HResult)
  | [] => [(k, v)]
  | (k', v') :: rest =>
      if k' = k then (k, v) :: rest else (k', v') :: setKey k v rest

/-- Dict lookup `k in m` / `m[k]`. -/
def lookupKey (k : DocKey) : List (DocKey × HResult) → Option HResult
  | [] => none
  | (k', v') :: rest => if k' = k then some v' else lookupKey k rest

/-- The fusion loop over semantic hits (`enumerate` index `i` feeds the
fallback key): each hit is written with
`semantic_score = 1 - min(dist, 1)` and `final = semantic_score * w`. -/
def semPass (w : ℚ) : List (Str × Meta × ℚ) → Nat →
    List (DocKey × HResult) → List (DocKey × HResult)
  | [], _, m => m
  | (doc, meta, dist) :: rest, i, m =>
      let key := match meta.source_doc_id with
        | some n => DocKey.src n
        | none => DocKey.semFallback i
      let s := 1 - min dist 1
      semPass w rest (i + 1) (setKey key ⟨doc, meta, s, 0, s * w⟩ m)

/-- One step of the fusion loop over keyword hits: merge into an existing
record (recomputing `final` from its stored `semantic_score`) or create a
lexical-only record. -/
def kwStep (w kw : ℚ) (key : DocKey) (doc : Str) (meta : Meta)
    (m : List (DocKey × HResult)) : List (DocKey × HResult) :=
  match lookupKey key m with
  | some r =>
      setKey key
        ⟨r.document, r.metadata, r.semantic_score, kw,
         r.semantic_score * w + kw * (1 - w)⟩ m
  | none => setKey key ⟨doc, meta, 0, kw, kw * (1 - w)⟩ m

/-- The fusion loop over keyword hits, normalizing the raw frequency
score by `min(score / 10, 1)`. -/
def kwPass (w : ℚ) : List (Str × Meta × Nat) → Nat →
    List (DocKey × HResult) → List (DocKey × HResult)
  | [], _, m => m
  | (doc, meta, score) :: rest, i, m =>
      let key := match meta.source_doc_id with
        | some n => DocKey.src n
        | none => DocKey.keyFallback i
      let kw := min ((score : ℚ) / 10) 1
      kwPass w rest (i + 1) (kwStep w kw key doc meta m)

/-- `hybrid_search`'s `combined_results` dict after both passes. -/
def combinedResults (semRes : SemRaw) (kwRes : KwRaw) (w : ℚ) :
    List (DocKey × HResult) :=
  kwPass w (kwRes.documents.zip (kwRes.metadatas.zip kwRes.scores)) 0
    (semPass w (semRes.documents.zip (semRes.metadatas.zip semRes.distances)) 0 [])

/-- Key/metadata coherence of the fusion dict: a record whose metadata
carries `source_doc_id = n` is stored under key `src n`. -/
def coherent (m : List (DocKey × HResult)) : Prop :=
  ∀ p ∈ m, ∀ n : Nat,
    p.2.metadata.source_doc_id = some n → p.1 = DocKey.src n

/-- The dict returned by `hybrid_search`. -/
structure HybridOut where
  documents : List Str
  metadatas : List Meta
  scores : List ℚ
  semantic_scores : List ℚ
  keyword_scores : List ℚ
deriving DecidableEq

/-- The fuse/sort/truncate tail of `hybrid_search`, over already-fetched
retriever outputs. -/
def hybridRank (semRes : SemRaw) (kwRes : KwRaw) (n : Nat) (w : ℚ) :
    HybridOut :=
  let m := combinedResults semRes kwRes w
  let sorted :=
    sortDesc (fun a b => decide (b.final_score < a.final_score))
      (m.map Prod.snd)
  let top := sorted.take n
  ⟨top.map (·.document), top.map (·.metadata), top.map (·.final_score),
   top.map (·.semantic_score), top.map (·.keyword_score)⟩

/-- `hybrid_search(query, n_results, ..., semantic_weight)`: both
retrievers are asked for `2 * n_results` hits (each absorbing its own
backend failure), then fused, sorted and truncated to `n_results`. -/
def hybridSearch (semBackend : Str → Nat → Except String SemRaw)
    (kwBackend : Except String KwData) (query : Str) (n : Nat) (w : ℚ) :
    HybridOut :=
  hybridRank (semanticSearch (semBackend query (n * 2)))
    (keywordSearch kwBackend query (n * 2)) n w

/- ### Evaluator metrics (`SemanticSearchDB._calculate_metrics`) -/

/-- The average-precision accumulation loop of `_calculate_metrics`:
`i` is the 0-based rank, `cnt` the number of relevant docs seen so far,
`acc` the running sum of precision-at-hit values. -/
def apLoop (rel : Finset String) : List String → Nat → Nat → ℚ → ℚ
  | [], _, _, acc => acc
  | d :: rest, i, cnt, acc =>
      if d ∈ rel then
        apLoop rel rest (i + 1) (cnt + 1) (acc + ((cnt : ℚ) + 1) / ((i : ℚ) + 1))
      else apLoop rel rest (i + 1) cnt acc

/-- `_calculate_metrics(retrieved_ids, relevant_ids)`: returns
`(precision, recall, average_precision)`, with `(0,0,0)` when either
input is empty; precision divides by the size of the *set* of retrieved
ids, exactly as the code's `set(retrieved_ids)`. -/
def calculateMetrics (retrieved : List String) (rel : Finset String) :
    ℚ × ℚ × ℚ :=
  if retrieved = [] ∨ rel = ∅ then (0, 0, 0)
  else
    let rset := retrieved.toFinset
    let inter := rset ∩ rel
    let precision : ℚ :=
      if rset ≠ ∅ then (inter.card : ℚ) / (rset.card : ℚ) else 0
    let recallVal : ℚ :=
      if rel ≠ ∅ then (inter.card : ℚ) / (rel.card : ℚ) else 0
    let avg : ℚ :=
      if rel ≠ ∅ then apLoop rel retrieved 0 0 0 / (rel.card : ℚ) else 0
    (precision, recallVal, avg)

/-- Precision as the claim words it:
`|retrieved ∩ relevant| / |retrieved|`, `0` if retrieved is empty. -/
def specPrecision (retrieved : List String) (rel : Finset String) : ℚ :=
  if retrieved = [] then 0
  else ((retrieved.toFinset ∩ rel).card : ℚ) / (retrieved.toFinset.card : ℚ)

/-- Recall as the claim words it:
`|retrieved ∩ relevant| / |relevant|`, `0` if relevant is empty. -/
def specRecall (retrieved : List String) (rel : Finset String) : ℚ :=
  if rel = ∅ then 0
  else ((retrieved.toFinset ∩ rel).card : ℚ) / (rel.card : ℚ)

/-- Standard average precision as the claim words it: over every rank
holding a relevant doc, sum the precision at that rank (relevant docs
seen within the first `i + 1` positions over `i + 1`), divided by
`|relevant|`; `0` if relevant is empty. -/
def specAveragePrecision (retrieved : List String) (rel : Finset String) : ℚ :=
  if rel = ∅ then 0
  else
    (∑ i ∈ Finset.range retrieved.length,
        if retrieved.getD i "" ∈ rel then
          (((retrieved.take (i + 1)).countP (fun d => decide (d ∈ rel)) : ℚ))
            / ((i : ℚ) + 1)
        else 0) / (rel.card : ℚ)

/- ### Endpoint link extraction (`main.answer_question`) -/

/-- One entry of the ranked result set reaching the link-building loop of
`answer_question`: the chunk text, its `url` and `title` metadata, and
its retrieval score (which the endpoint code never reads). -/
structure LinkItem where
  document : Str
  url : Str
  title : Str
  score : ℚ
deriving DecidableEq

/-- A `Link(url=..., text=...)` response model instance. -/
structure Link where
  url : Str
  text : Str
deriving DecidableEq

/-- The title clean-up applied before emitting a link:
`title[:100].strip()`, defaulting to `"Course Discussion"` when blank. -/
def cleanTitle (title : Str) : Str :=
  let c := stripS (title.take 100)
  if c = [] then "Course Discussion".data else c

/-- The link-building loop of `answer_question` with its running
`seen_urls` set: entries whose document is empty or strips below 50
characters are skipped entirely; a link is emitted when the url is
non-empty, unseen and starts with `"http"`. -/
def buildLinks : List LinkItem → List Str → List Link
  | [], _ => []
  | it :: rest, seen =>
      if it.document = [] ∨ (stripS it.document).length < 50 then
        buildLinks rest seen
      else if it.url ≠ [] ∧ it.url ∉ seen ∧ isPre "http".data it.url then
        ⟨it.url, cleanTitle it.title⟩ :: buildLinks rest (it.url :: seen)
      else buildLinks rest seen

/-- The links of a successful `answer_question` response:
the loop's output truncated by `links = links[:3]`. -/
def answerLinks (items : List LinkItem) : List Link :=
  (buildLinks items []).take 3

/-- Keep the first link per url, given already-seen urls. -/
def dedupByUrl : List Link → List Str → List Link
  | [], _ => []
  | l :: ls, seen =>
      if l.url ∈ seen then dedupByUrl ls seen
      else l :: dedupByUrl ls (l.url :: seen)

/-- The entry filter actually applied by `answer_question` before a link
can be emitted. -/
def keepItem (it : LinkItem) : Bool :=
  !(it.document = [] ∨ (stripS it.document).length < 50 : Bool)
    && (it.url ≠ [] && isPre "http".data it.url)

/-- Link extraction as claim C8 words it: drop entries with empty URL,
stable-sort the survivors by `(score, text length)` descending, keep the
first occurrence per URL. -/
def claimedLinkExtract (items : List LinkItem) : List Link :=
  let surviving := items.filter (fun it => it.url ≠ [])
  let sorted := sortDesc
    (fun a b =>
      decide (b.score < a.score) ||
        (decide (a.score = b.score) && decide (b.document.length < a.document.length)))
    surviving
  dedupByUrl (sorted.map (fun it => ⟨it.url, cleanTitle it.title⟩)) []

/- ### Theorems -/

/-- Claim C4 (confirmed): `categorize` is total with fixed priority — for
every chunk text and title it returns exactly one category out of
`{assignment, exam, technical, course, general}`, obtained by testing the
keyword sets by substring containment in the fixed order assignment →
exam → technical → course with the first match winning, falling back to
`general` when no keyword occurs; and
`categorize("Assignment 3 deadline extended", "")` is `"assignment"`. -/
theorem claim_C4_categorize_total_fixed_priority :
    (∀ content title : Str,
      categorizeContent content title ∈
        ["assignment", "exam", "technical", "course", "general"] ∧
      categorizeContent content title =
        (if kwMatch (toLowerS (content ++ ' ' :: title)) assignmentKws then "assignment"
         else if kwMatch (toLowerS (content ++ ' ' :: title)) examKws then "exam"
         else if kwMatch (toLowerS (content ++ ' ' :: title)) technicalKws then "technical"
         else if kwMatch (toLowerS (content ++ ' ' :: title)) courseKws then "course"
         else "general")) ∧
    categorizeContent "Assignment 3 deadline extended".data "".data = "assignment" := by
  constructor
  · intro content title
    have hchar : categorizeContent content title =
        (if kwMatch (toLowerS (content ++ ' ' :: title)) assignmentKws then "assignment"
         else if kwMatch (toLowerS (content ++ ' ' :: title)) examKws then "exam"
         else if kwMatch (toLowerS (content ++ ' ' :: title)) technicalKws then "technical"
         else if kwMatch (toLowerS (content ++ ' ' :: title)) courseKws then "course"
         else "general") := by
      simp only [categorizeContent, categoriesTable, List.find?]
      cases h1 : kwMatch (toLowerS (content ++ ' ' :: title)) assignmentKws <;>
        cases h2 : kwMatch (toLowerS (content ++ ' ' :: title)) examKws <;>
        cases h3 : kwMatch (toLowerS (content ++ ' ' :: title)) technicalKws <;>
        cases h4 : kwMatch (toLowerS (content ++ ' ' :: title)) courseKws <;>
        simp only [kwMatch] at h1 h2 h3 h4 <;>
        simp only [h1, h2, h3, h4, kwMatch, List.any_nil] <;> rfl
    refine ⟨?_, hchar⟩
    rw [hchar]
    cases kwMatch (toLowerS (content ++ ' ' :: title)) assignmentKws <;>
      cases kwMatch (toLowerS (content ++ ' ' :: title)) examKws <;>
      cases kwMatch (toLowerS (content ++ ' ' :: title)) technicalKws <;>
      cases kwMatch (toLowerS (content ++ ' ' :: title)) courseKws <;>
      simp
  · decide

/-- The loop of `_split_into_chunks` exits within its fuel whenever the
fuel covers the remaining distance to the end of the text, and scans at
most that many windows. -/
lemma chunkLoop_some_of_le (text : Str) (ms ov : Nat) :
    ∀ (fuel start : Nat), text.length - start ≤ fuel →
      ∃ l, chunkLoop text ms ov fuel start = some l ∧
        l.length ≤ text.length - start := by
  intro fuel
  induction fuel with
  | zero =>
    intro start h
    refine ⟨[], ?_, by simp⟩
    rw [chunkLoop]
    have : text.length ≤ start := by omega
    simp [this]
  | succ fuel ih =>
    intro start h
    by_cases hs : text.length ≤ start
    · refine ⟨[], ?_, by simp⟩
      rw [chunkLoop]
      simp [hs]
    · have hlt : start < text.length := by omega
      set e := chunkEnd text start ms with he
      set start' := max (start + 1) (e - ov) with hs'
      have h1 : start + 1 ≤ start' := le_max_left _ _
      have h2 : text.length - start' ≤ fuel := by omega
      obtain ⟨l, hl, hlen⟩ := ih start' h2
      refine ⟨(start, e) :: l, ?_, ?_⟩
      · rw [chunkLoop]
        simp only [if_neg hs, ← he, ← hs', hl]
      · simp only [List.length_cons]
        omega

/-- Claim C5 (confirmed): for every input text and parameters
`max_size > 0`, `overlap ≥ 0` (including the degenerate configuration
`overlap ≥ max_size`), the window start strictly increases each
iteration — it advances to `max(start + 1, end - overlap)` — hence the
chunker's loop exits within fuel `len(text)` and scans at most
`len(text)` windows. -/
theorem claim_C5_chunking_progress (text : Str) (max_size overlap : Nat)
    (hms : 0 < max_size) :
    (∀ start, start <
        max (start + 1) (chunkEnd text start max_size - overlap)) ∧
    (chunkLoop text max_size overlap text.length 0).isSome ∧
    (chunkWindows text max_size overlap).length ≤ text.length := by
  obtain ⟨l, hl, hlen⟩ :=
    chunkLoop_some_of_le text max_size overlap text.length 0 (by omega)
  refine ⟨fun start => lt_of_lt_of_le (Nat.lt_succ_self start) (le_max_left _ _),
    ?_, ?_⟩
  · rw [hl]; rfl
  · rw [chunkWindows, hl]
    simpa using hlen

/-- Witness for claim C5 at a concrete degenerate configuration
(`max_size = 3`, `overlap = 7`, so `overlap ≥ max_size`). -/
theorem claim_C5_chunking_progress_witness :
    (17 < max (17 + 1) (chunkEnd "overlap bigger than size".data 17 3 - 7)) ∧
    (chunkLoop "overlap bigger than size".data 3 7
        "overlap bigger than size".data.length 0).isSome ∧
    (chunkWindows "overlap bigger than size".data 3 7).length ≤
      "overlap bigger than size".data.length :=
  ⟨(claim_C5_chunking_progress "overlap bigger than size".data 3 7
      (by decide)).1 17,
   (claim_C5_chunking_progress "overlap bigger than size".data 3 7
      (by decide)).2.1,
   (claim_C5_chunking_progress "overlap bigger than size".data 3 7
      (by decide)).2.2⟩

/-- A hit reported by the chunker's `rfind`-with-`> start` test lies
strictly after the window start. -/
lemma rfindGt_lt {text pat : Str} {s e i : Nat}
    (h : rfindGt text pat s e = some i) : s < i := by
  unfold rfindGt at h
  cases hr : rfindS text pat s e with
  | none => rw [hr] at h; cases h
  | some j =>
    rw [hr] at h
    dsimp only at h
    by_cases hj : s < j
    · rw [if_pos hj] at h
      cases h
      exact hj
    · rw [if_neg hj] at h
      cases h

/-- With a positive `max_size`, every adjusted window end lies strictly
beyond the window start. -/
lemma chunkEnd_ge (text : Str) (start ms : Nat) (hms : 0 < ms) :
    start + 1 ≤ chunkEnd text start ms := by
  unfold chunkEnd
  by_cases hlen : start + ms < text.length
  · rw [if_pos hlen]
    cases h1 : rfindGt text ['.', ' '] start (start + ms) with
    | some i => have := rfindGt_lt h1; dsimp only; omega
    | none =>
      cases h2 : rfindGt text ['!', ' '] start (start + ms) with
      | some i => have := rfindGt_lt h2; dsimp only; omega
      | none =>
        cases h3 : rfindGt text ['?', ' '] start (start + ms) with
        | some i => have := rfindGt_lt h3; dsimp only; omega
        | none =>
          cases h4 : rfindGt text [' '] start (start + ms) with
          | some i => have := rfindGt_lt h4; dsimp only; omega
          | none => dsimp only; omega
  · rw [if_neg hlen]
    omega

/-- Scanned-window coverage: from any live start, the windows the loop
scans cover every remaining character index. -/
lemma chunkLoop_covers (text : Str) (ms ov : Nat) (hms : 0 < ms) :
    ∀ (fuel start : Nat), text.length - start ≤ fuel →
      ∀ i, start ≤ i → i < text.length →
        ∃ l, chunkLoop text ms ov fuel start = some l ∧
          ∃ p ∈ l, p.1 ≤ i ∧ i < p.2 := by
  intro fuel
  induction fuel with
  | zero => intro start h i hsi hilen; omega
  | succ fuel ih =>
    intro start h i hsi hilen
    have hs : ¬ text.length ≤ start := by omega
    set e := chunkEnd text start ms with he
    set start' := max (start + 1) (e - ov) with hs'
    have hse : start + 1 ≤ e := chunkEnd_ge text start ms hms
    by_cases hie : i < e
    · obtain ⟨l, hl, _⟩ :=
        chunkLoop_some_of_le text ms ov fuel start' (by omega)
      refine ⟨(start, e) :: l, ?_, (start, e), by simp, hsi, hie⟩
      rw [chunkLoop]
      simp only [if_neg hs, ← he, ← hs', hl]
    · have hs'e : start' ≤ e := by omega
      obtain ⟨l, hl, p, hp, hpi⟩ := ih start' (by omega) i (by omega) hilen
      refine ⟨(start, e) :: l, ?_, p, by simp [hp], hpi⟩
      rw [chunkLoop]
      simp only [if_neg hs, ← he, ← hs', hl]

/-- Counterexample to claim C6: on a text of eight spaces with
`max_size = 3`, `overlap = 0`, every window's chunk strips to empty and
is dropped, so no emitted chunk covers any character index (indeed the
chunker returns no chunks at all for this non-empty text). -/
theorem claim_C6_counterexample :
    ¬ chunkCoverage (List.replicate 8 ' ') 3 0 ∧
    splitIntoChunks (List.replicate 8 ' ') 3 0 = [] ∧
    (List.replicate 8 ' ' : Str).length = 8 := by decide

/-- Claim C6 as amended (proved): for every text and parameters with
`max_size > 0`, every character index of the input lies inside the span
of at least one *scanned* window; an index can escape the emitted chunks
only when its windows' slices strip to empty (whitespace-only) and are
dropped, as in the counterexample. -/
theorem claim_C6_window_coverage (text : Str) (max_size overlap : Nat)
    (hms : 0 < max_size) :
    ∀ i < text.length, ∃ p ∈ windowSpans text max_size overlap,
      p.1 ≤ i ∧ i < p.2 := by
  intro i hi
  unfold windowSpans
  by_cases hshort : text.length ≤ max_size
  · rw [if_pos hshort]
    exact ⟨(0, text.length), by simp, by omega, hi⟩
  · rw [if_neg hshort]
    obtain ⟨l, hl, p, hp, hpi⟩ :=
      chunkLoop_covers text max_size overlap hms text.length 0 (by omega) i
        (by omega) hi
    rw [chunkWindows, hl]
    exact ⟨p, hp, hpi⟩

/-- Witness for the amended claim C6 on a concrete long text. -/
theorem claim_C6_window_coverage_witness :
    ∃ p ∈ windowSpans "the quick brown fox jumps".data 4 2,
      p.1 ≤ 13 ∧ 13 < p.2 :=
  claim_C6_window_coverage "the quick brown fox jumps".data 4 2 (by decide)
    13 (by decide)

/-- Claim C9 (confirmed): `keyword_search` is case-invariant in the
query — both the query tokens and the document text are lower-cased
before substring-occurrence counting, so two queries equal up to letter
case yield exactly the same documents, scores and order, whatever the
indexed corpus, requested size and backend outcome. -/
theorem claim_C9_keyword_search_case_invariant
    (backend : Except String KwData) (n : Nat) (q q' : Str)
    (hq : toLowerS q = toLowerS q') :
    keywordSearch backend q n = keywordSearch backend q' n := by
  cases backend with
  | error e => rfl
  | ok d =>
    show keywordSearchRun d q n = keywordSearchRun d q' n
    unfold keywordSearchRun
    rw [hq]

/-- Witness for claim C9: a mixed-case and a lower-case query against a
concrete corpus produce identical results. -/
theorem claim_C9_keyword_search_case_invariant_witness :
    keywordSearch
        (Except.ok ⟨["Python error in my code".data, "The API docs".data],
          [⟨[], [], [], "technical", some 0⟩, ⟨[], [], [], "technical", some 1⟩],
          ["doc_0_chunk_0", "doc_1_chunk_0"]⟩)
        "PYTHON Api".data 5 =
      keywordSearch
        (Except.ok ⟨["Python error in my code".data, "The API docs".data],
          [⟨[], [], [], "technical", some 0⟩, ⟨[], [], [], "technical", some 1⟩],
          ["doc_0_chunk_0", "doc_1_chunk_0"]⟩)
        "python api".data 5 :=
  claim_C9_keyword_search_case_invariant _ 5 "PYTHON Api".data "python api".data
    (by decide)

/-- Claim C7 (confirmed): when the backing store or embedding call fails
(modelled as the `Except.error` outcome of the backend), `semantic_search`
and `keyword_search` each return the empty result set instead of
propagating, and `hybrid_search` — a total function of the two absorbed
retriever outputs — returns an empty ranked result rather than raising. -/
theorem claim_C7_retriever_error_absorption (e e' : String) (q : Str)
    (n n' : Nat) (w : ℚ) :
    semanticSearch (Except.error e) = ⟨[], [], []⟩ ∧
    keywordSearch (Except.error e') q n' = ⟨[], [], []⟩ ∧
    hybridSearch (fun _ _ => Except.error e) (Except.error e') q n w =
      ⟨[], [], [], [], []⟩ :=
  ⟨rfl, rfl, by
    simp [hybridSearch, hybridRank, combinedResults, semanticSearch,
      keywordSearch, semPass, kwPass, sortDesc]⟩

/-- Dict assignment then lookup at the same key. -/
lemma lookup_setKey_self (k : DocKey) (v : HResult) :
    ∀ m, lookupKey k (setKey k v m) = some v := by
  intro m
  induction m with
  | nil => simp [setKey, lookupKey]
  | cons p rest ih =>
    obtain ⟨k', v'⟩ := p
    by_cases h : k' = k
    · simp [setKey, h, lookupKey]
    · simp [setKey, h, lookupKey, ih]

/-- Dict assignment leaves lookups at other keys unchanged. -/
lemma lookup_setKey_ne {k' k : DocKey} (h : k' ≠ k) (v : HResult) :
    ∀ m, lookupKey k' (setKey k v m) = lookupKey k' m := by
  intro m
  induction m with
  | nil => simp [setKey, lookupKey, Ne.symm h]
  | cons p rest ih =>
    obtain ⟨k'', v''⟩ := p
    by_cases hk : k'' = k
    · subst hk
      simp [setKey, lookupKey, h, Ne.symm h]
    · simp [setKey, hk, lookupKey, ih]

/-- A keyword-pass step leaves lookups at other keys unchanged. -/
lemma kwStep_lookup_ne {key k : DocKey} (h : k ≠ key) (w kw : ℚ)
    (doc : Str) (meta : Meta) (m : List (DocKey × HResult)) :
    lookupKey k (kwStep w kw key doc meta m) = lookupKey k m := by
  unfold kwStep
  cases lookupKey key m <;> exact lookup_setKey_ne h _ m

/-- The semantic pass distributes over list append (the running
enumeration index shifting accordingly). -/
lemma semPass_append (w : ℚ) (a b : List (Str × Meta × ℚ)) :
    ∀ i m, semPass w (a ++ b) i m = semPass w b (i + a.length) (semPass w a i m) := by
  induction a with
  | nil => intro i m; simp [semPass]
  | cons x rest ih =>
    intro i m
    obtain ⟨doc, meta, dist⟩ := x
    simp only [List.cons_append, semPass, List.length_cons, List.append_eq]
    rw [ih]
    congr 1
    omega

/-- The keyword pass distributes over list append. -/
lemma kwPass_append (w : ℚ) (a b : List (Str × Meta × Nat)) :
    ∀ i m, kwPass w (a ++ b) i m = kwPass w b (i + a.length) (kwPass w a i m) := by
  induction a with
  | nil => intro i m; simp [kwPass]
  | cons x rest ih =>
    intro i m
    obtain ⟨doc, meta, score⟩ := x
    simp only [List.cons_append, kwPass, List.length_cons, List.append_eq]
    rw [ih]
    congr 1
    omega

/-- The semantic pass leaves the record at key `src n` unchanged when no
processed hit carries `source_doc_id = n` (fallback keys never collide
with `src` keys). -/
lemma semPass_lookup_src (w : ℚ) (n : Nat) :
    ∀ (l : List (Str × Meta × ℚ)) (i : Nat) m,
      (∀ x ∈ l, x.2.1.source_doc_id ≠ some n) →
      lookupKey (DocKey.src n) (semPass w l i m) =
        lookupKey (DocKey.src n) m := by
  intro l
  induction l with
  | nil => intro i m _; rfl
  | cons x rest ih =>
    intro i m h
    obtain ⟨doc, meta, dist⟩ := x
    have hx : meta.source_doc_id ≠ some n := h (doc, meta, dist) (by simp)
    have hrest : ∀ x ∈ rest, x.2.1.source_doc_id ≠ some n :=
      fun x hxr => h x (by simp [hxr])
    simp only [semPass]
    rw [ih _ _ hrest]
    cases hsdi : meta.source_doc_id with
    | none => simp only [hsdi]; exact lookup_setKey_ne (by simp) _ m
    | some n' =>
      have : n' ≠ n := fun hn => hx (by rw [hsdi, hn])
      simp only [hsdi]
      exact lookup_setKey_ne (by simp [Ne.symm this]) _ m

/-- The keyword pass leaves the record at key `src n` unchanged when no
processed hit carries `source_doc_id = n`. -/
lemma kwPass_lookup_src (w : ℚ) (n : Nat) :
    ∀ (l : List (Str × Meta × Nat)) (i : Nat) m,
      (∀ x ∈ l, x.2.1.source_doc_id ≠ some n) →
      lookupKey (DocKey.src n) (kwPass w l i m) =
        lookupKey (DocKey.src n) m := by
  intro l
  induction l with
  | nil => intro i m _; rfl
  | cons x rest ih =>
    intro i m h
    obtain ⟨doc, meta, score⟩ := x
    have hx : meta.source_doc_id ≠ some n := h (doc, meta, score) (by simp)
    have hrest : ∀ x ∈ rest, x.2.1.source_doc_id ≠ some n :=
      fun x hxr => h x (by simp [hxr])
    simp only [kwPass]
    rw [ih _ _ hrest]
    cases hsdi : meta.source_doc_id with
    | none => simp only [hsdi]; exact kwStep_lookup_ne (by simp) _ _ _ _ m
    | some n' =>
      have : n' ≠ n := fun hn => hx (by rw [hsdi, hn])
      simp only [hsdi]
      exact kwStep_lookup_ne (by simp [Ne.symm this]) _ _ _ _ m

/-- Claim C1 (confirmed): a document carried by both retrieval sets (its
`source_doc_id` occurring exactly once on each side) receives in
`hybrid_search`'s fusion map the fused score
`semantic_score * w + min(lexical_raw/10, 1) * (1 - w)` with
`semantic_score = 1 - min(distance, 1)`; for semantic score `0.9`
(distance `0.1`) and raw lexical score `8` under `w = 0.7` this is
`0.87` (the witness instantiates these numbers). -/
theorem claim_C1_fused_score_formula
    (semRes : SemRaw) (kwRes : KwRaw) (w d : ℚ) (s n : Nat)
    (docA docB : Str) (metaA metaB : Meta)
    (s1 s2 : List (Str × Meta × ℚ)) (k1 k2 : List (Str × Meta × Nat))
    (hsem : semRes.documents.zip (semRes.metadatas.zip semRes.distances) =
      s1 ++ (docA, metaA, d) :: s2)
    (hkw : kwRes.documents.zip (kwRes.metadatas.zip kwRes.scores) =
      k1 ++ (docB, metaB, s) :: k2)
    (hA : metaA.source_doc_id = some n) (hB : metaB.source_doc_id = some n)
    (hsOnce : ∀ x ∈ s1 ++ s2, x.2.1.source_doc_id ≠ some n)
    (hkOnce : ∀ x ∈ k1 ++ k2, x.2.1.source_doc_id ≠ some n) :
    lookupKey (DocKey.src n) (combinedResults semRes kwRes w) =
      some ⟨docA, metaA, 1 - min d 1, min ((s : ℚ) / 10) 1,
        (1 - min d 1) * w + min ((s : ℚ) / 10) 1 * (1 - w)⟩ := by
  have hs1 : ∀ x ∈ s1, x.2.1.source_doc_id ≠ some n :=
    fun x hx => hsOnce x (by simp [hx])
  have hs2 : ∀ x ∈ s2, x.2.1.source_doc_id ≠ some n :=
    fun x hx => hsOnce x (by simp [hx])
  have hk1 : ∀ x ∈ k1, x.2.1.source_doc_id ≠ some n :=
    fun x hx => hkOnce x (by simp [hx])
  have hk2 : ∀ x ∈ k2, x.2.1.source_doc_id ≠ some n :=
    fun x hx => hkOnce x (by simp [hx])
  unfold combinedResults
  rw [hsem, hkw]
  have hsemLookup :
      lookupKey (DocKey.src n)
        (semPass w (s1 ++ (docA, metaA, d) :: s2) 0 []) =
      some ⟨docA, metaA, 1 - min d 1, 0, (1 - min d 1) * w⟩ := by
    rw [semPass_append]
    simp only [semPass, hA]
    rw [semPass_lookup_src w n s2 _ _ hs2]
    exact lookup_setKey_self _ _ _
  rw [kwPass_append]
  simp only [kwPass, hB]
  rw [kwPass_lookup_src w n k2 _ _ hk2]
  have hM : lookupKey (DocKey.src n)
      (kwPass w k1 0 (semPass w (s1 ++ (docA, metaA, d) :: s2) 0 [])) =
      some ⟨docA, metaA, 1 - min d 1, 0, (1 - min d 1) * w⟩ := by
    rw [kwPass_lookup_src w n k1 _ _ hk1]
    exact hsemLookup
  unfold kwStep
  rw [hM]
  exact lookup_setKey_self _ _ _

/-- Witness for claim C1, instantiating scenario C: one semantic hit for
document 1 at distance `0.1` (semantic score `0.9`) and one lexical hit
for document 1 with raw frequency `8`, under `semantic_weight = 0.7`; the
fused score evaluates to `0.87`. -/
theorem claim_C1_fused_score_formula_witness :
    lookupKey (DocKey.src 1)
        (combinedResults
          ⟨["semdoc".data], [⟨[], [], [], "general", some 1⟩], [1/10]⟩
          ⟨["kwdoc".data], [⟨[], [], [], "general", some 1⟩], [8]⟩ (7/10)) =
      some ⟨"semdoc".data, ⟨[], [], [], "general", some 1⟩,
        1 - min (1/10 : ℚ) 1, min (((8 : Nat) : ℚ) / 10) 1,
        (1 - min (1/10 : ℚ) 1) * (7/10) +
          min (((8 : Nat) : ℚ) / 10) 1 * (1 - 7/10)⟩ ∧
    (1 - min (1/10 : ℚ) 1) * (7/10) +
        min (((8 : Nat) : ℚ) / 10) 1 * (1 - 7/10) = 87/100 :=
  ⟨claim_C1_fused_score_formula
      ⟨["semdoc".data], [⟨[], [], [], "general", some 1⟩], [1/10]⟩
      ⟨["kwdoc".data], [⟨[], [], [], "general", some 1⟩], [8]⟩
      (7/10) (1/10) 8 1 "semdoc".data "kwdoc".data
      ⟨[], [], [], "general", some 1⟩ ⟨[], [], [], "general", some 1⟩
      [] [] [] [] rfl rfl rfl rfl (by simp) (by simp),
   by norm_num [min_def]⟩

/-- Members of a dict after assignment: the assigned pair or an original
member. -/
lemma mem_setKey {p : DocKey × HResult} {k : DocKey} {v : HResult} :
    ∀ {m}, p ∈ setKey k v m → p = (k, v) ∨ p ∈ m := by
  intro m
  induction m with
  | nil => intro h; simp [setKey] at h; exact Or.inl h
  | cons q rest ih =>
    obtain ⟨k', v'⟩ := q
    intro h
    by_cases hk : k' = k
    · simp only [setKey, if_pos hk, List.mem_cons] at h
      rcases h with h | h
      · exact Or.inl h
      · exact Or.inr (List.mem_cons_of_mem _ h)
    · simp only [setKey, if_neg hk, List.mem_cons] at h
      rcases h with h | h
      · exact Or.inr (by simp [h])
      · rcases ih h with h' | h'
        · exact Or.inl h'
        · exact Or.inr (List.mem_cons_of_mem _ h')

/-- Keys after assignment: the assigned key or an original key. -/
lemma mem_keys_setKey {a k : DocKey} {v : HResult} :
    ∀ {m}, a ∈ (setKey k v m).map Prod.fst → a = k ∨ a ∈ m.map Prod.fst := by
  intro m ha
  rw [List.mem_map] at ha
  obtain ⟨p, hp, hpa⟩ := ha
  rcases mem_setKey hp with h | h
  · exact Or.inl (by rw [← hpa, h])
  · exact Or.inr (by rw [← hpa]; exact List.mem_map_of_mem _ h)

/-- Dict assignment preserves key distinctness. -/
lemma nodup_keys_setKey (k : DocKey) (v : HResult) :
    ∀ m, (m.map Prod.fst).Nodup → ((setKey k v m).map Prod.fst).Nodup := by
  intro m
  induction m with
  | nil => intro _; simp [setKey]
  | cons q rest ih =>
    obtain ⟨k', v'⟩ := q
    intro hnd
    simp only [List.map_cons, List.nodup_cons] at hnd
    by_cases hk : k' = k
    · subst hk
      rw [setKey, if_pos rfl]
      simpa using hnd
    · simp only [setKey, if_neg hk, List.map_cons, List.nodup_cons]
      refine ⟨fun hmem => ?_, ih hnd.2⟩
      rcases mem_keys_setKey hmem with h | h
      · exact hk h
      · exact hnd.1 h

/-- The semantic pass preserves key distinctness. -/
lemma nodup_keys_semPass (w : ℚ) :
    ∀ (l : List (Str × Meta × ℚ)) (i : Nat) m,
      (m.map Prod.fst).Nodup → ((semPass w l i m).map Prod.fst).Nodup := by
  intro l
  induction l with
  | nil => intro i m h; exact h
  | cons x rest ih =>
    intro i m h
    obtain ⟨doc, meta, dist⟩ := x
    exact ih _ _ (nodup_keys_setKey _ _ m h)

/-- A keyword-pass step preserves key distinctness. -/
lemma nodup_keys_kwStep (w kw : ℚ) (key : DocKey) (doc : Str) (meta : Meta)
    (m : List (DocKey × HResult)) (h : (m.map Prod.fst).Nodup) :
    ((kwStep w kw key doc meta m).map Prod.fst).Nodup := by
  unfold kwStep
  cases lookupKey key m <;> exact nodup_keys_setKey _ _ m h

/-- The keyword pass preserves key distinctness. -/
lemma nodup_keys_kwPass (w : ℚ) :
    ∀ (l : List (Str × Meta × Nat)) (i : Nat) m,
      (m.map Prod.fst).Nodup → ((kwPass w l i m).map Prod.fst).Nodup := by
  intro l
  induction l with
  | nil => intro i m h; exact h
  | cons x rest ih =>
    intro i m h
    obtain ⟨doc, meta, score⟩ := x
    exact ih _ _ (nodup_keys_kwStep _ _ _ _ _ m h)

/-- Dict assignment preserves key/metadata coherence when the assigned
pair is itself coherent. -/
lemma coherent_setKey {m : List (DocKey × HResult)} {k : DocKey} {v : HResult}
    (hm : coherent m)
    (hv : ∀ n : Nat, v.metadata.source_doc_id = some n → k = DocKey.src n) :
    coherent (setKey k v m) := by
  intro p hp n hn
  rcases mem_setKey hp with h | h
  · rw [h] at hn ⊢
    exact hv n hn
  · exact hm p h n hn

/-- A successful dict lookup exhibits a member. -/
lemma lookupKey_mem {k : DocKey} {r : HResult} :
    ∀ {m}, lookupKey k m = some r → (k, r) ∈ m := by
  intro m
  induction m with
  | nil => intro h; cases h
  | cons q rest ih =>
    obtain ⟨k', v'⟩ := q
    intro h
    by_cases hk : k' = k
    · rw [lookupKey, if_pos hk] at h
      cases h
      rw [hk]
      simp
    · rw [lookupKey, if_neg hk] at h
      exact List.mem_cons_of_mem _ (ih h)

/-- The semantic pass preserves key/metadata coherence. -/
lemma coherent_semPass (w : ℚ) :
    ∀ (l : List (Str × Meta × ℚ)) (i : Nat) m,
      coherent m → coherent (semPass w l i m) := by
  intro l
  induction l with
  | nil => intro i m h; exact h
  | cons x rest ih =>
    intro i m h
    obtain ⟨doc, meta, dist⟩ := x
    refine ih _ _ (coherent_setKey h ?_)
    intro n hn
    have hn' : meta.source_doc_id = some n := hn
    rw [hn']

/-- A keyword-pass step preserves key/metadata coherence. -/
lemma coherent_kwStep {w kw : ℚ} {key : DocKey} {doc : Str} {meta : Meta}
    {m : List (DocKey × HResult)} (hm : coherent m)
    (hmeta : ∀ n : Nat, meta.source_doc_id = some n → key = DocKey.src n) :
    coherent (kwStep w kw key doc meta m) := by
  unfold kwStep
  cases hlk : lookupKey key m with
  | some r =>
    refine coherent_setKey hm ?_
    intro n hn
    exact hm (key, r) (lookupKey_mem hlk) n hn
  | none => exact coherent_setKey hm hmeta

/-- The keyword pass preserves key/metadata coherence. -/
lemma coherent_kwPass (w : ℚ) :
    ∀ (l : List (Str × Meta × Nat)) (i : Nat) m,
      coherent m → coherent (kwPass w l i m) := by
  intro l
  induction l with
  | nil => intro i m h; exact h
  | cons x rest ih =>
    intro i m h
    obtain ⟨doc, meta, score⟩ := x
    refine ih _ _ (coherent_kwStep h ?_)
    intro n hn
    rw [hn]

/-- Distinct keys plus coherence give pairwise-distinct source-document
ids among the fusion dict's records. -/
lemma pairwise_src_of_nodup_coherent {m : List (DocKey × HResult)}
    (hnd : (m.map Prod.fst).Nodup) (hco : coherent m) :
    m.Pairwise (fun p q => ∀ n : Nat,
      p.2.metadata.source_doc_id = some n →
        q.2.metadata.source_doc_id ≠ some n) := by
  have hne : m.Pairwise (fun p q => p.1 ≠ q.1) := by
    rw [List.Nodup, List.pairwise_map] at hnd
    exact hnd
  refine List.Pairwise.imp_of_mem (fun {p q} hp hq h => ?_) hne
  intro n hpn hqn
  exact h ((hco p hp n hpn).trans (hco q hq n hqn).symm)

/-- The stable descending insertion is a permutation of consing. -/
lemma insertDesc_perm (gt : α → α → Bool) (x : α) :
    ∀ l, List.Perm (insertDesc gt x l) (x :: l) := by
  intro l
  induction l with
  | nil => exact List.Perm.refl _
  | cons y ys ih =>
    by_cases h : gt y x
    · rw [insertDesc, if_pos h]
      exact (ih.cons y).trans (List.Perm.swap x y ys)
    · rw [insertDesc, if_neg h]

/-- The stable descending sort is a permutation of its input. -/
lemma sortDesc_perm (gt : α → α → Bool) :
    ∀ l, List.Perm (sortDesc gt l) l := by
  intro l
  induction l with
  | nil => exact List.Perm.refl _
  | cons x xs ih =>
    rw [sortDesc]
    exact (insertDesc_perm gt x _).trans (ih.cons x)

/-- Claim C2 (confirmed): for every query, requested size, backend
outcome (hence any category filter) and semantic weight, no two entries
of the ranked list returned by `hybrid_search` share the same
source-document identity (the metadata's `source_doc_id`); and a
document found by only one retriever still appears in the fusion map,
scored only on that signal times its weight — the other signal
contributes zero, never forcing the fused score to zero. -/
theorem claim_C2_fusion_dedup_invariant :
    (∀ (semBackend : Str → Nat → Except String SemRaw)
        (kwBackend : Except String KwData) (q : Str) (n : Nat) (w : ℚ),
      (hybridSearch semBackend kwBackend q n w).metadatas.Pairwise
        (fun m1 m2 => ∀ k : Nat,
          m1.source_doc_id = some k → m2.source_doc_id ≠ some k)) ∧
    (∀ (semRes : SemRaw) (kwRes : KwRaw) (w d : ℚ) (n : Nat) (docA : Str)
        (metaA : Meta) (s1 s2 : List (Str × Meta × ℚ)),
      semRes.documents.zip (semRes.metadatas.zip semRes.distances) =
          s1 ++ (docA, metaA, d) :: s2 →
      metaA.source_doc_id = some n →
      (∀ x ∈ s1 ++ s2, x.2.1.source_doc_id ≠ some n) →
      (∀ x ∈ kwRes.documents.zip (kwRes.metadatas.zip kwRes.scores),
        x.2.1.source_doc_id ≠ some n) →
      lookupKey (DocKey.src n) (combinedResults semRes kwRes w) =
        some ⟨docA, metaA, 1 - min d 1, 0, (1 - min d 1) * w⟩) ∧
    (∀ (semRes : SemRaw) (kwRes : KwRaw) (w : ℚ) (s n : Nat) (docB : Str)
        (metaB : Meta) (k1 k2 : List (Str × Meta × Nat)),
      kwRes.documents.zip (kwRes.metadatas.zip kwRes.scores) =
          k1 ++ (docB, metaB, s) :: k2 →
      metaB.source_doc_id = some n →
      (∀ x ∈ k1 ++ k2, x.2.1.source_doc_id ≠ some n) →
      (∀ x ∈ semRes.documents.zip (semRes.metadatas.zip semRes.distances),
        x.2.1.source_doc_id ≠ some n) →
      lookupKey (DocKey.src n) (combinedResults semRes kwRes w) =
        some ⟨docB, metaB, 0, min ((s : ℚ) / 10) 1,
          min ((s : ℚ) / 10) 1 * (1 - w)⟩) := by
  refine ⟨?_, ?_, ?_⟩
  · intro semBackend kwBackend q n w
    set semRes := semanticSearch (semBackend q (n * 2))
    set kwRes := keywordSearch kwBackend q (n * 2)
    have hnd : ((combinedResults semRes kwRes w).map Prod.fst).Nodup := by
      unfold combinedResults
      exact nodup_keys_kwPass w _ 0 _ (nodup_keys_semPass w _ 0 [] (by simp))
    have hco : coherent (combinedResults semRes kwRes w) := by
      unfold combinedResults
      exact coherent_kwPass w _ 0 _
        (coherent_semPass w _ 0 [] (by intro p hp; cases hp))
    have hpair := pairwise_src_of_nodup_coherent hnd hco
    have hvals :
        ((combinedResults semRes kwRes w).map Prod.snd).Pairwise
          (fun r1 r2 => ∀ k : Nat,
            r1.metadata.source_doc_id = some k →
              r2.metadata.source_doc_id ≠ some k) := by
      rw [List.pairwise_map]
      exact hpair
    have hsym : ∀ {r1 r2 : HResult},
        (∀ k : Nat, r1.metadata.source_doc_id = some k →
          r2.metadata.source_doc_id ≠ some k) →
        (∀ k : Nat, r2.metadata.source_doc_id = some k →
          r1.metadata.source_doc_id ≠ some k) := by
      intro r1 r2 h k h2 h1
      exact h k h1 h2
    have hsorted :=
      ((sortDesc_perm (fun a b => decide (b.final_score < a.final_score))
          ((combinedResults semRes kwRes w).map Prod.snd)).symm.pairwise_iff
        (fun h => hsym h)).mp hvals
    have htop := hsorted.sublist (List.take_sublist n _)
    show ((_ : List HResult).map (·.metadata)).Pairwise _
    rw [List.pairwise_map]
    exact htop
  · intro semRes kwRes w d n docA metaA s1 s2 hsem hA hsOnce hkAll
    have hs2 : ∀ x ∈ s2, x.2.1.source_doc_id ≠ some n :=
      fun x hx => hsOnce x (by simp [hx])
    unfold combinedResults
    rw [hsem]
    rw [kwPass_lookup_src w n _ _ _ hkAll]
    rw [semPass_append]
    simp only [semPass, hA]
    rw [semPass_lookup_src w n s2 _ _ hs2]
    exact lookup_setKey_self _ _ _
  · intro semRes kwRes w s n docB metaB k1 k2 hkw hB hkOnce hsAll
    have hk1 : ∀ x ∈ k1, x.2.1.source_doc_id ≠ some n :=
      fun x hx => hkOnce x (by simp [hx])
    have hk2 : ∀ x ∈ k2, x.2.1.source_doc_id ≠ some n :=
      fun x hx => hkOnce x (by simp [hx])
    unfold combinedResults
    rw [hkw]
    have hsemLookup :
        lookupKey (DocKey.src n)
          (semPass w (semRes.documents.zip
            (semRes.metadatas.zip semRes.distances)) 0 []) = none := by
      rw [semPass_lookup_src w n _ _ _ hsAll]
      rfl
    rw [kwPass_append]
    simp only [kwPass, hB]
    rw [kwPass_lookup_src w n k2 _ _ hk2]
    have hM : lookupKey (DocKey.src n)
        (kwPass w k1 0 (semPass w (semRes.documents.zip
          (semRes.metadatas.zip semRes.distances)) 0 [])) = none := by
      rw [kwPass_lookup_src w n k1 _ _ hk1]
      exact hsemLookup
    unfold kwStep
    rw [hM]
    exact lookup_setKey_self _ _ _

/-- Witness for claim C2: a concrete run with both retrievers reporting
documents 1 and 2 (deduplication case), a semantic-only document 3 and a
lexical-only document 4. -/
theorem claim_C2_fusion_dedup_invariant_witness :
    (hybridSearch
        (fun _ _ => Except.ok ⟨["d1".data, "d3".data],
          [⟨[], [], [], "general", some 1⟩, ⟨[], [], [], "general", some 3⟩],
          [1/10, 2/10]⟩)
        (Except.ok ⟨["d1".data], [⟨[], [], [], "general", some 1⟩], ["i1"]⟩)
        "d1".data 5 (7/10)).metadatas.Pairwise
      (fun m1 m2 => ∀ k : Nat,
        m1.source_doc_id = some k → m2.source_doc_id ≠ some k) ∧
    lookupKey (DocKey.src 3)
        (combinedResults
          ⟨["d3".data], [⟨[], [], [], "general", some 3⟩], [2/10]⟩
          ⟨[], [], []⟩ (7/10)) =
      some ⟨"d3".data, ⟨[], [], [], "general", some 3⟩, 1 - min (2/10 : ℚ) 1, 0,
        (1 - min (2/10 : ℚ) 1) * (7/10)⟩ ∧
    lookupKey (DocKey.src 4)
        (combinedResults ⟨[], [], []⟩
          ⟨["d4".data], [⟨[], [], [], "general", some 4⟩], [8]⟩ (7/10)) =
      some ⟨"d4".data, ⟨[], [], [], "general", some 4⟩, 0,
        min (((8 : Nat) : ℚ) / 10) 1, min (((8 : Nat) : ℚ) / 10) 1 * (1 - 7/10)⟩ :=
  ⟨claim_C2_fusion_dedup_invariant.1 _ _ "d1".data 5 (7/10),
   claim_C2_fusion_dedup_invariant.2.1
     ⟨["d3".data], [⟨[], [], [], "general", some 3⟩], [2/10]⟩
     ⟨[], [], []⟩ (7/10) (2/10) 3 "d3".data ⟨[], [], [], "general", some 3⟩
     [] [] rfl rfl (by simp) (by simp),
   claim_C2_fusion_dedup_invariant.2.2
     ⟨[], [], []⟩ ⟨["d4".data], [⟨[], [], [], "general", some 4⟩], [8]⟩
     (7/10) 8 4 "d4".data ⟨[], [], [], "general", some 4⟩
     [] [] rfl rfl (by simp) (by simp)⟩

/-- The average-precision loop of `_calculate_metrics` computes the
standard positional sum: over every rank holding a relevant doc, the
count of relevant docs within that prefix divided by the rank. -/
lemma apLoop_eq (rel : Finset String) :
    ∀ (l : List String) (i cnt : Nat) (acc : ℚ),
      apLoop rel l i cnt acc = acc +
        ∑ j ∈ Finset.range l.length,
          (if l.getD j "" ∈ rel then
            ((cnt : ℚ) + ((l.take (j + 1)).countP (fun d => decide (d ∈ rel)) : ℚ))
              / ((i : ℚ) + (j : ℚ) + 1)
          else 0) := by
  intro l
  induction l with
  | nil => intro i cnt acc; simp [apLoop]
  | cons d rest ih =>
    intro i cnt acc
    rw [List.length_cons, Finset.sum_range_succ']
    have hterm : ∀ j ∈ Finset.range rest.length,
        (if (d :: rest).getD (j + 1) "" ∈ rel then
          ((cnt : ℚ) +
            (((d :: rest).take (j + 1 + 1)).countP (fun x => decide (x ∈ rel)) : ℚ))
            / ((i : ℚ) + ((j + 1 : ℕ) : ℚ) + 1) else 0) =
        (if rest.getD j "" ∈ rel then
          (((cnt + (if d ∈ rel then 1 else 0) : ℕ) : ℚ) +
            ((rest.take (j + 1)).countP (fun x => decide (x ∈ rel)) : ℚ))
            / (((i + 1 : ℕ) : ℚ) + (j : ℚ) + 1) else 0) := by
      intro j hj
      simp only [List.getD_cons_succ, List.take_succ_cons, List.countP_cons,
        decide_eq_true_eq]
      by_cases hr : rest.getD j "" ∈ rel
      · rw [if_pos hr, if_pos hr]
        by_cases hd : d ∈ rel <;>
          · push_cast
            ring_nf
      · rw [if_neg hr, if_neg hr]
    rw [Finset.sum_congr rfl hterm]
    by_cases hd : d ∈ rel
    · rw [apLoop, if_pos hd, ih]
      have h0 : (if (d :: rest).getD 0 "" ∈ rel then
          ((cnt : ℚ) + (((d :: rest).take (0 + 1)).countP (fun x => decide (x ∈ rel)) : ℚ))
            / ((i : ℚ) + ((0 : ℕ) : ℚ) + 1) else 0) =
          ((cnt : ℚ) + 1) / ((i : ℚ) + 1) := by
        simp [hd]
      rw [h0]
      simp only [hd, if_true]
      push_cast
      ring
    · rw [apLoop, if_neg hd, ih]
      have h0 : (if (d :: rest).getD 0 "" ∈ rel then
          ((cnt : ℚ) + (((d :: rest).take (0 + 1)).countP (fun x => decide (x ∈ rel)) : ℚ))
            / ((i : ℚ) + ((0 : ℕ) : ℚ) + 1) else 0) = 0 := by
        simp [hd]
      rw [h0]
      simp only [hd, if_false]
      push_cast
      simp

/-- Claim C3 (confirmed): `_calculate_metrics` returns exactly the
claimed Precision (`|retrieved ∩ relevant| / |retrieved|`, 0 when
retrieved is empty), Recall (`|retrieved ∩ relevant| / |relevant|`, 0
when relevant is empty) and standard AveragePrecision; and on retrieval
`["doc_1","doc_2"]` against relevant `{"doc_1"}` it yields
`(0.5, 1.0, 1.0)` (scenario D). -/
theorem claim_C3_evaluator_metrics :
    (∀ (retrieved : List String) (rel : Finset String),
      calculateMetrics retrieved rel =
        (specPrecision retrieved rel, specRecall retrieved rel,
          specAveragePrecision retrieved rel)) ∧
    calculateMetrics ["doc_1", "doc_2"] {"doc_1"} = (1/2, 1, 1) := by
  constructor
  · intro retrieved rel
    by_cases hret : retrieved = []
    · subst hret
      simp [calculateMetrics, specPrecision, specRecall, specAveragePrecision]
    · by_cases hrel : rel = ∅
      · subst hrel
        simp [calculateMetrics, specPrecision, specRecall,
          specAveragePrecision, hret]
      · rw [calculateMetrics, if_neg (by simp [hret, hrel])]
        have hfin : retrieved.toFinset ≠ ∅ := by
          simp [List.toFinset_eq_empty_iff, hret]
        rw [specPrecision, if_neg hret, specRecall, if_neg hrel,
          specAveragePrecision, if_neg hrel]
        simp only [hfin, hrel, ne_eq, not_false_iff, if_true, Prod.mk.injEq]
        refine ⟨trivial, trivial, ?_⟩
        rw [apLoop_eq]
        simp only [Nat.cast_zero, zero_add]
  · simp [calculateMetrics, apLoop]

/-- The endpoint's link loop equals filtering by its entry conditions,
mapping to links, and keeping the first occurrence per URL. -/
lemma buildLinks_eq_dedupByUrl :
    ∀ (items : List LinkItem) (seen : List Str),
      buildLinks items seen =
        dedupByUrl ((items.filter keepItem).map
          (fun it => ⟨it.url, cleanTitle it.title⟩)) seen := by
  intro items
  induction items with
  | nil => intro seen; rfl
  | cons it rest ih =>
    intro seen
    by_cases hdoc : it.document = [] ∨ (stripS it.document).length < 50
    · have hkeep : keepItem it = false := by
        simp [keepItem, hdoc]
      rw [buildLinks, if_pos hdoc, List.filter_cons_of_neg (by simp [hkeep]),
        ih]
    · by_cases hurl : it.url ≠ [] ∧ isPre "http".data it.url = true
      · have hkeep : keepItem it = true := by
          simp [keepItem, hdoc, hurl.1, hurl.2]
        rw [buildLinks, if_neg hdoc,
          List.filter_cons_of_pos (by simp [hkeep]), List.map_cons]
        by_cases hseen : it.url ∈ seen
        · rw [if_neg (by simp [hseen]), dedupByUrl, if_pos hseen, ih]
        · rw [if_pos ⟨hurl.1, hseen, hurl.2⟩, dedupByUrl, if_neg hseen, ih]
      · have hkeep : keepItem it = false := by
          rcases not_and_or.mp hurl with h | h
          · simp only [ne_eq, not_not] at h
            simp [keepItem, h]
          · simp only [Bool.not_eq_true] at h
            simp [keepItem, h]
        rw [buildLinks, if_neg hdoc, if_neg (by
            intro hc
            exact hurl ⟨hc.1, hc.2.2⟩),
          List.filter_cons_of_neg (by simp [hkeep]), ih]

/-- Links surviving URL-deduplication come from the input list. -/
lemma mem_dedupByUrl {l : Link} :
    ∀ {ls : List Link} {seen : List Str}, l ∈ dedupByUrl ls seen → l ∈ ls := by
  intro ls
  induction ls with
  | nil => intro seen h; cases h
  | cons x rest ih =>
    intro seen h
    rw [dedupByUrl] at h
    by_cases hx : x.url ∈ seen
    · rw [if_pos hx] at h
      exact List.mem_cons_of_mem _ (ih h)
    · rw [if_neg hx] at h
      rcases List.mem_cons.mp h with h' | h'
      · simp [h']
      · exact List.mem_cons_of_mem _ (ih h')

/-- URL-deduplication yields pairwise-distinct URLs, none of them
already seen. -/
lemma dedupByUrl_nodup_urls :
    ∀ (ls : List Link) (seen : List Str),
      (dedupByUrl ls seen).Pairwise (fun a b => a.url ≠ b.url) ∧
      ∀ l ∈ dedupByUrl ls seen, l.url ∉ seen := by
  intro ls
  induction ls with
  | nil => intro seen; exact ⟨List.Pairwise.nil, by simp [dedupByUrl]⟩
  | cons x rest ih =>
    intro seen
    rw [dedupByUrl]
    by_cases hx : x.url ∈ seen
    · rw [if_pos hx]
      exact ih seen
    · rw [if_neg hx]
      obtain ⟨ihp, ihs⟩ := ih (x.url :: seen)
      refine ⟨List.pairwise_cons.mpr ⟨?_, ihp⟩, ?_⟩
      · intro b hb hurl
        exact ihs b hb (by rw [← hurl]; simp)
      · intro l hl
        rcases List.mem_cons.mp hl with h' | h'
        · rw [h']; exact hx
        · intro hmem
          exact ihs l h' (List.mem_cons_of_mem _ hmem)

/-- Every link the endpoint loop emits carries an `http`-prefixed URL. -/
lemma buildLinks_http :
    ∀ (items : List LinkItem) (seen : List Str),
      ∀ l ∈ buildLinks items seen, isPre "http".data l.url = true := by
  intro items
  induction items with
  | nil => intro seen l h; cases h
  | cons it rest ih =>
    intro seen l h
    rw [buildLinks] at h
    by_cases hdoc : it.document = [] ∨ (stripS it.document).length < 50
    · rw [if_pos hdoc] at h
      exact ih seen l h
    · rw [if_neg hdoc] at h
      by_cases hcond : it.url ≠ [] ∧ it.url ∉ seen ∧ isPre "http".data it.url = true
      · rw [if_pos hcond] at h
        rcases List.mem_cons.mp h with h' | h'
        · rw [h']
          exact hcond.2.2
        · exact ih _ l h'
      · rw [if_neg hcond] at h
        exact ih seen l h

set_option maxRecDepth 4000 in
/-- Counterexample to claim C8: two entries with the same URL, equal
scores and different document lengths — the claimed procedure re-sorts
by `(score, text length)` descending and keeps the longer entry's title,
while `answer_question` keeps the first entry in the given ranked order
(it never re-sorts, and it also drops short-document entries the claimed
procedure would keep). -/
theorem claim_C8_counterexample :
    answerLinks
        [⟨List.replicate 60 'a', "http://a".data, "T1".data, 1⟩,
         ⟨List.replicate 120 'b', "http://a".data, "T2".data, 1⟩] ≠
      claimedLinkExtract
        [⟨List.replicate 60 'a', "http://a".data, "T1".data, 1⟩,
         ⟨List.replicate 120 'b', "http://a".data, "T2".data, 1⟩] := by decide

/-- Claim C8 as amended (proved): the link list is built in the given
ranked order with no re-sorting — entries whose document is empty or
strips below 50 characters, or whose URL is empty or not `http`-prefixed,
are dropped; the first surviving occurrence per URL wins; the result is
truncated to 3 links whose URLs are pairwise distinct. -/
theorem claim_C8_link_extraction_contract (items : List LinkItem) :
    answerLinks items =
      (dedupByUrl ((items.filter keepItem).map
        (fun it => ⟨it.url, cleanTitle it.title⟩)) []).take 3 ∧
    (answerLinks items).Pairwise (fun a b => a.url ≠ b.url) := by
  constructor
  · rw [answerLinks, buildLinks_eq_dedupByUrl]
  · rw [answerLinks, buildLinks_eq_dedupByUrl]
    exact (dedupByUrl_nodup_urls _ []).1.sublist (List.take_sublist 3 _)

/-- Claim C10 (confirmed): every successful `answer_question` response
carries at most 3 links, with pairwise-distinct URLs, each starting with
`"http"` — entries with missing, duplicate or non-http URLs are never
emitted. -/
theorem claim_C10_bounded_dedup_links (items : List LinkItem) :
    (answerLinks items).length ≤ 3 ∧
    (answerLinks items).Pairwise (fun a b => a.url ≠ b.url) ∧
    ∀ l ∈ answerLinks items, isPre "http".data l.url = true := by
  refine ⟨?_, ?_, ?_⟩
  · rw [answerLinks]
    exact List.length_take_le 3 _
  · rw [answerLinks, buildLinks_eq_dedupByUrl]
    exact (dedupByUrl_nodup_urls _ []).1.sublist (List.take_sublist 3 _)
  · intro l hl
    rw [answerLinks] at hl
    exact buildLinks_http items [] l (List.mem_of_mem_take hl)

end TdsVirtualTA
